import Mathlib

/-!
Shallow embedding of the reset-detection / interval-counting / reconciliation
core of the `rain-model-validation` repository
(`validation-module-reset-trade-counts/resets.py` and its caller `main.py`).

Modelling conventions:
  * a pandas `DataFrame` is a list of typed rows together with the list of its
    column labels (the label list is what the `required_columns` checks inspect);
  * a cell that can be `NaN`/`pd.NA` in the source is an `Option`;
  * pandas `==` on cells is `optEq`: any comparison involving a missing value is
    `false` (`NaN == x` is `False` in pandas);
  * `sort_values(by=k, ascending=True, ignore_index=True)` is modelled by
    `List.insertionSort` on the key (a stable comparison sort; tie order among
    equal keys is implementation-defined in the source, see spec section 9);
  * a Python function that can `raise` returns `Except String`; a `try/except`
    block that catches and returns `None` is an inner `Except` matched to `none`;
  * the in-place `rename` mutation of the market frame is modelled by returning
    the post-call market frame alongside the result (explicit state passing).
-/

namespace RainValidation

/-- pandas equality on two possibly-missing cells: `NaN` compares unequal to
everything, including another `NaN`. -/
def optEq (a b : Option String) : Bool :=
  match a, b with
  | some x, some y => x == y
  | _, _ => false

/-- One row of the strategy-trades frame as consumed by `add_resets_column`
(`resets.py` lines 4-34): the three required columns.  Token cells may be
missing on an individual record (NaN). -/
structure TradeRow where
  trade_timestamp : Int
  input_token : Option String
  output_token : Option String
deriving Repr, DecidableEq

/-- The input frame of `add_resets_column`: its column labels plus its rows. -/
structure TradeDF where
  columns : List String
  rows : List TradeRow
deriving Repr, DecidableEq

/-- One row of the frame returned by `add_resets_column`: the original cells
plus the shifted `prev_input_token` / `prev_output_token` columns and the
computed `resets` flag (`resets.py` lines 21-28). -/
structure ResetRow where
  trade_timestamp : Int
  input_token : Option String
  output_token : Option String
  prev_input_token : Option String
  prev_output_token : Option String
  resets : Bool
deriving Repr, DecidableEq

/-- Ascending order on the `trade_timestamp` key used by every
`sort_values(by=trade_timestamp)` call in `resets.py`. -/
def tsLE (a b : TradeRow) : Prop :=
  a.trade_timestamp ≤ b.trade_timestamp

instance : DecidableRel tsLE := fun a b => inferInstanceAs (Decidable (_ ≤ _))

instance : IsTotal TradeRow tsLE := ⟨fun a b => Int.le_total _ _⟩

instance : IsTrans TradeRow tsLE := ⟨fun _ _ _ h h' => le_trans h h'⟩

/-- Build one output row of `add_resets_column` from a trade and its
chronological predecessor (shift(1) semantics: the first row has no
predecessor; a predecessor's missing cell stays missing). -/
def mkResetRow (prev : Option TradeRow) (r : TradeRow) : ResetRow :=
  { trade_timestamp := r.trade_timestamp
    input_token := r.input_token
    output_token := r.output_token
    prev_input_token := prev.bind (·.input_token)
    prev_output_token := prev.bind (·.output_token)
    resets := optEq r.input_token (prev.bind (·.output_token)) &&
              optEq r.output_token (prev.bind (·.input_token)) }

/-- The row-building pass of `add_resets_column` over the timestamp-sorted
rows, threading the previous row (the `shift(1)` columns). -/
def addResetsRows (prev : Option TradeRow) : List TradeRow → List ResetRow
  | [] => []
  | r :: rs => mkResetRow prev r :: addResetsRows (some r) rs

/-- The `required_columns` list of `add_resets_column` (`resets.py` line 11). -/
def resetsRequiredColumns : List String :=
  ["trade_timestamp", "input_token", "output_token"]

/-- `add_resets_column` (`resets.py` lines 4-34).  Raises (`Except.error`) when
a required column label is absent from the frame; otherwise sorts ascending by
`trade_timestamp` and attaches the shifted columns and the `resets` flag.  The
`try` body cannot fail on a typed frame, so the `except`-returns-`None` branch
is the always-`some` result. -/
def add_resets_column (df : TradeDF) : Except String (Option (List ResetRow)) :=
  if (resetsRequiredColumns.filter (fun c => !df.columns.contains c)).isEmpty then
    .ok (some (addResetsRows none (List.insertionSort tsLE df.rows)))
  else
    .error "The required columns are missing from the dataframe"

/-- Default rows used to state positional facts through `List.getD`. -/
def dT : TradeRow := ⟨0, none, none⟩

/-- Default output row used to state positional facts through `List.getD`. -/
def dR : ResetRow := ⟨0, none, none, none, none, false⟩

/-- The timestamp-sorted view of a detector input frame (the frame after
`resets.py` line 18). -/
def sortedTrades (df : TradeDF) : List TradeRow :=
  List.insertionSort tsLE df.rows

theorem optEq_none_right (a : Option String) : optEq a none = false := by
  cases a <;> rfl

theorem addResetsRows_length (prev : Option TradeRow) (l : List TradeRow) :
    (addResetsRows prev l).length = l.length := by
  induction l generalizing prev with
  | nil => rfl
  | cons r rs ih => simp [addResetsRows, ih]

theorem addResetsRows_get_zero (prev : Option TradeRow) (l : List TradeRow)
    (h : 0 < l.length) (h2 : 0 < (addResetsRows prev l).length) :
    (addResetsRows prev l).get ⟨0, h2⟩ = mkResetRow prev (l.get ⟨0, h⟩) := by
  cases l with
  | nil => exact absurd h (by simp)
  | cons r rs => rfl

theorem addResetsRows_get_succ (l : List TradeRow) (prev : Option TradeRow) (i : Nat)
    (h : i + 1 < l.length) (h1 : i < l.length)
    (h2 : i + 1 < (addResetsRows prev l).length) :
    (addResetsRows prev l).get ⟨i + 1, h2⟩ =
      mkResetRow (some (l.get ⟨i, h1⟩)) (l.get ⟨i + 1, h⟩) := by
  induction l generalizing prev i with
  | nil => exact absurd h (by simp)
  | cons r rs ih =>
    cases i with
    | zero =>
      have hrs : 0 < rs.length := by
        simpa using h
      have hrs2 : 0 < (addResetsRows (some r) rs).length := by
        rw [addResetsRows_length]; exact hrs
      simpa [addResetsRows, List.get] using addResetsRows_get_zero (some r) rs hrs hrs2
    | succ j =>
      have hj : j + 1 < rs.length := by simpa using h
      have hj1 : j < rs.length := Nat.lt_of_succ_lt hj
      have hj2 : j + 1 < (addResetsRows (some r) rs).length := by
        rw [addResetsRows_length]; exact hj
      simpa [addResetsRows, List.get] using ih (some r) j hj hj1 hj2

theorem add_resets_column_ok (df : TradeDF)
    (hcols : ∀ c ∈ resetsRequiredColumns, c ∈ df.columns) :
    add_resets_column df = .ok (some (addResetsRows none (sortedTrades df))) := by
  have hnil : resetsRequiredColumns.filter (fun c => !df.columns.contains c) = [] := by
    rw [List.filter_eq_nil_iff]
    intro c hc
    simp only [Bool.not_eq_true', Bool.not_eq_true, Bool.not_eq_false]
    exact List.elem_iff.mpr (hcols c hc)
  simp only [add_resets_column, hnil, List.isEmpty_nil, if_true, sortedTrades]

/-- **C1**: on an input frame whose records all carry the required fields, the
Reset Detector sorts ascending by timestamp, marks position 0 as not a reset,
and for every later position marks a reset exactly when the trade's input token
equals the previous trade's output token and its output token equals the
previous trade's input token. -/
theorem reset_detector_c1 (df : TradeDF)
    (hcols : ∀ c ∈ resetsRequiredColumns, c ∈ df.columns)
    (hfields : ∀ r ∈ df.rows, r.input_token.isSome ∧ r.output_token.isSome) :
    ∃ out, add_resets_column df = .ok (some out) ∧
      out.length = df.rows.length ∧
      (0 < out.length → (out.getD 0 dR).resets = false) ∧
      (∀ i : Nat, i + 1 < out.length →
        ((out.getD (i + 1) dR).resets = true ↔
          ((sortedTrades df).getD (i + 1) dT).input_token =
            ((sortedTrades df).getD i dT).output_token ∧
          ((sortedTrades df).getD (i + 1) dT).output_token =
            ((sortedTrades df).getD i dT).input_token)) := by
  refine ⟨addResetsRows none (sortedTrades df), add_resets_column_ok df hcols, ?_, ?_, ?_⟩
  · rw [addResetsRows_length, sortedTrades, List.length_insertionSort]
  · intro h0
    have hs : 0 < (sortedTrades df).length := by
      rwa [addResetsRows_length] at h0
    rw [List.getD_eq_getElem _ _ h0]
    have := addResetsRows_get_zero none (sortedTrades df) hs h0
    simp only [List.get_eq_getElem] at this
    rw [this, mkResetRow]
    simp [optEq_none_right]
  · intro i hi
    have hs : i + 1 < (sortedTrades df).length := by
      rwa [addResetsRows_length] at hi
    have hs1 : i < (sortedTrades df).length := Nat.lt_of_succ_lt hs
    have hmem : ∀ j (hj : j < (sortedTrades df).length),
        ((sortedTrades df).get ⟨j, hj⟩).input_token.isSome ∧
        ((sortedTrades df).get ⟨j, hj⟩).output_token.isSome := by
      intro j hj
      refine hfields _ ?_
      have := List.get_mem (sortedTrades df) j hj
      exact (List.perm_insertionSort tsLE df.rows).mem_iff.mp this
    rw [List.getD_eq_getElem _ _ hi, List.getD_eq_getElem _ _ hs, List.getD_eq_getElem _ _ hs1]
    have hget := addResetsRows_get_succ (sortedTrades df) none i hs hs1 hi
    simp only [List.get_eq_getElem] at hget
    rw [hget, mkResetRow]
    obtain ⟨hin1, hout1⟩ := hmem (i + 1) hs
    obtain ⟨hin0, hout0⟩ := hmem i hs1
    simp only [List.get_eq_getElem] at hin1 hout1 hin0 hout0
    obtain ⟨a1, ha1⟩ := Option.isSome_iff_exists.mp hin1
    obtain ⟨b1, hb1⟩ := Option.isSome_iff_exists.mp hout1
    obtain ⟨a0, ha0⟩ := Option.isSome_iff_exists.mp hin0
    obtain ⟨b0, hb0⟩ := Option.isSome_iff_exists.mp hout0
    simp [optEq, ha1, hb1, ha0, hb0, Option.bind]

/-- Witness for C1 at the spec's scenario-1 input. -/
theorem reset_detector_c1_witness :
    (∀ c ∈ resetsRequiredColumns,
        c ∈ (⟨resetsRequiredColumns,
          [⟨1, some "A", some "B"⟩, ⟨2, some "B", some "A"⟩,
           ⟨3, some "A", some "B"⟩]⟩ : TradeDF).columns) ∧
    (∃ out, add_resets_column (⟨resetsRequiredColumns,
          [⟨1, some "A", some "B"⟩, ⟨2, some "B", some "A"⟩,
           ⟨3, some "A", some "B"⟩]⟩ : TradeDF) = .ok (some out) ∧
      out.length = 3 ∧
      (0 < out.length → (out.getD 0 dR).resets = false) ∧
      (∀ i : Nat, i + 1 < out.length →
        ((out.getD (i + 1) dR).resets = true ↔
          ((sortedTrades ⟨resetsRequiredColumns,
            [⟨1, some "A", some "B"⟩, ⟨2, some "B", some "A"⟩,
             ⟨3, some "A", some "B"⟩]⟩).getD (i + 1) dT).input_token =
            ((sortedTrades ⟨resetsRequiredColumns,
              [⟨1, some "A", some "B"⟩, ⟨2, some "B", some "A"⟩,
               ⟨3, some "A", some "B"⟩]⟩).getD i dT).output_token ∧
          ((sortedTrades ⟨resetsRequiredColumns,
            [⟨1, some "A", some "B"⟩, ⟨2, some "B", some "A"⟩,
             ⟨3, some "A", some "B"⟩]⟩).getD (i + 1) dT).output_token =
            ((sortedTrades ⟨resetsRequiredColumns,
              [⟨1, some "A", some "B"⟩, ⟨2, some "B", some "A"⟩,
               ⟨3, some "A", some "B"⟩]⟩).getD i dT).input_token))) :=
  ⟨by decide, reset_detector_c1 _ (by decide) (by decide)⟩

/-- **C7 counterexample**: a frame carrying all required column labels in which
one record lacks its `input_token` value.  The claim demands a
`MissingFieldError` before any output; the code's check (`resets.py` lines
11-14) only inspects column labels, so no error is raised and a full output is
produced (the NaN cell merely compares unequal during reset detection). -/
theorem reset_detector_c7_counterexample :
    add_resets_column
        (⟨resetsRequiredColumns,
          [⟨1, some "A", some "B"⟩, ⟨2, none, some "A"⟩]⟩ : TradeDF) =
      .ok (some
        [⟨1, some "A", some "B", none, none, false⟩,
         ⟨2, none, some "A", some "A", some "B", false⟩]) ∧
    (⟨2, none, some "A"⟩ : TradeRow) ∈
      (⟨resetsRequiredColumns,
        [⟨1, some "A", some "B"⟩, ⟨2, none, some "A"⟩]⟩ : TradeDF).rows :=
  ⟨rfl, by decide⟩

/-- **C7 amended**: the Reset Detector raises exactly when a required column
label (`trade_timestamp`, `input_token`, `output_token`) is absent from the
input frame; a missing value on an individual record in a present column does
not raise. -/
theorem reset_detector_c7_amended (df : TradeDF) :
    (∃ e, add_resets_column df = .error e) ↔
      ¬ (∀ c ∈ resetsRequiredColumns, c ∈ df.columns) := by
  constructor
  · rintro ⟨e, he⟩ hall
    rw [add_resets_column_ok df hall] at he
    exact Except.noConfusion he
  · intro hnot
    have hne : resetsRequiredColumns.filter (fun c => !df.columns.contains c) ≠ [] := by
      intro hnil
      refine hnot ?_
      intro c hc
      have := (List.filter_eq_nil_iff.mp hnil) c hc
      simp only [Bool.not_eq_true', Bool.not_eq_true, Bool.not_eq_false] at this
      exact List.elem_iff.mp this
    refine ⟨"The required columns are missing from the dataframe", ?_⟩
    have : (resetsRequiredColumns.filter (fun c => !df.columns.contains c)).isEmpty = false := by
      rcases h : resetsRequiredColumns.filter (fun c => !df.columns.contains c) with _ | ⟨a, l⟩
      · exact absurd h hne
      · rfl
    unfold add_resets_column
    rw [this]
    rfl

/-- One row of the frame consumed by `calculate_trades_between_resets`
(`resets.py` lines 37-98): the two required columns; the `resets` cell can be
`pd.NA` (masking with such a cell raises inside the `try` block). -/
structure FlagRow where
  trade_timestamp : Int
  resets : Option Bool
deriving Repr, DecidableEq

/-- The input frame of `calculate_trades_between_resets`. -/
structure FlagDF where
  columns : List String
  rows : List FlagRow
deriving Repr, DecidableEq

/-- Ascending order on a generic integer sort key (the `trade_timestamp`
column of whichever frame is being sorted). -/
def keyLE {α : Type} (ts : α → Int) (a b : α) : Prop := ts a ≤ ts b

instance {α : Type} (ts : α → Int) : DecidableRel (keyLE ts) :=
  fun a b => inferInstanceAs (Decidable (ts a ≤ ts b))

instance {α : Type} (ts : α → Int) : IsTotal α (keyLE ts) :=
  ⟨fun a b => Int.le_total (ts a) (ts b)⟩

instance {α : Type} (ts : α → Int) : IsTrans α (keyLE ts) :=
  ⟨fun _ _ _ h h' => le_trans h h'⟩

/-- The 0-based positions (counted from `i`) at which the `resets` cell is
`True` — the model of `df.index[df['resets']]` on the position-labelled frame
(`resets.py` line 59, after `ignore_index=True` sorting). -/
def resetIndicesFrom {α : Type} (rst : α → Option Bool) : Nat → List α → List Nat
  | _, [] => []
  | i, r :: rs =>
    if rst r = some true then i :: resetIndicesFrom rst (i + 1) rs
    else resetIndicesFrom rst (i + 1) rs

/-- Positions of the reset rows in a (sorted) row list. -/
def resetIndices {α : Type} (rst : α → Option Bool) (rows : List α) : List Nat :=
  resetIndicesFrom rst 0 rows

/-- The per-reset counts (`resets.py` lines 64-78): the consecutive-position
differences minus one, with the first entry overwritten by the first reset's
own position. -/
def intervalCounts : List Nat → List Int
  | [] => []
  | r :: rest =>
    (r : Int) :: List.zipWith (fun a b : Nat => (b : Int) - (a : Int) - 1) (r :: rest) rest

/-- The `rows_since_last_reset` column (`resets.py` lines 82-86): `pd.NA`
everywhere except at the reset positions, which receive their counts. -/
def countsColumn (pairs : List (Nat × Int)) (n : Nat) : List (Option Int) :=
  (List.range n).map (fun i => List.lookup i pairs)

/-- The `try` body of `calculate_trades_between_resets` (`resets.py` lines
51-95), generic in the row type because pandas carries any extra columns
along: sort by timestamp, build the reset mask (raising if a cell is NA),
signal `none` when no resets exist, otherwise attach the counts column. -/
def countCore {α : Type} (ts : α → Int) (rst : α → Option Bool) (rows : List α) :
    Except Unit (Option (List (α × Option Int))) :=
  if (List.insertionSort (keyLE ts) rows).any (fun r => (rst r).isNone) then
    .error ()
  else
    match resetIndices rst (List.insertionSort (keyLE ts) rows) with
    | [] => .ok none
    | r :: rest =>
      .ok (some ((List.insertionSort (keyLE ts) rows).zip
        (countsColumn ((r :: rest).zip (intervalCounts (r :: rest)))
          (List.insertionSort (keyLE ts) rows).length)))

/-- The `required_columns` list of `calculate_trades_between_resets`
(`resets.py` line 44). -/
def calcRequiredColumns : List String := ["trade_timestamp", "resets"]

/-- `calculate_trades_between_resets` minus its frame type: the column check
raises; every exception inside the `try` block is caught and turned into the
`None` result (`resets.py` lines 96-98), as is the no-resets case. -/
def calcBetweenDF {α : Type} (cols : List String) (ts : α → Int) (rst : α → Option Bool)
    (rows : List α) : Except String (Option (List (α × Option Int))) :=
  if (calcRequiredColumns.filter (fun c => !cols.contains c)).isEmpty then
    .ok (match countCore ts rst rows with
         | .error _ => none
         | .ok r => r)
  else
    .error "The required columns are missing from the dataframe"

/-- `calculate_trades_between_resets` (`resets.py` lines 37-98). -/
def calculate_trades_between_resets (df : FlagDF) :
    Except String (Option (List (FlagRow × Option Int))) :=
  calcBetweenDF df.columns (fun r => r.trade_timestamp) (fun r => r.resets) df.rows

/-- The timestamp-sorted view of an interval-counter input frame. -/
def sortedFlags (df : FlagDF) : List FlagRow :=
  List.insertionSort (keyLE (fun r : FlagRow => r.trade_timestamp)) df.rows

/-- Reset positions of an interval-counter input frame, in its sorted order. -/
def resetIndicesF (df : FlagDF) : List Nat :=
  resetIndices (fun r => r.resets) (sortedFlags df)

/-- Default element used to state positional facts about counter outputs. -/
def dFC : FlagRow × Option Int := (⟨0, none⟩, none)

/-- Sum of the attached interval counts of a counter output. -/
def sumCounts (out : List (FlagRow × Option Int)) : Int :=
  (out.filterMap Prod.snd).sum

/-- Number of reset-flagged rows of a counter input. -/
def numResets (rows : List FlagRow) : Nat :=
  (rows.filter (fun r => r.resets == some true)).length

theorem mem_resetIndicesFrom {α : Type} (rst : α → Option Bool) (l : List α) (i j : Nat) :
    j ∈ resetIndicesFrom rst i l ↔
      ∃ k, ∃ hk : k < l.length, j = i + k ∧ rst (l.get ⟨k, hk⟩) = some true := by
  induction l generalizing i with
  | nil => simp [resetIndicesFrom]
  | cons r rs ih =>
    by_cases hr : rst r = some true
    · simp only [resetIndicesFrom, hr, if_true, List.mem_cons, ih (i + 1)]
      constructor
      · rintro (rfl | ⟨k, hk, rfl, hget⟩)
        · exact ⟨0, by simp, by simp, by simpa using hr⟩
        · exact ⟨k + 1, by simpa using hk, by omega, by simpa using hget⟩
      · rintro ⟨k, hk, rfl, hget⟩
        cases k with
        | zero => exact Or.inl (by simp)
        | succ m =>
          refine Or.inr ⟨m, by simpa using hk, by omega, ?_⟩
          simpa using hget
    · simp only [resetIndicesFrom, hr, if_false, ih (i + 1)]
      constructor
      · rintro ⟨k, hk, rfl, hget⟩
        exact ⟨k + 1, by simpa using hk, by omega, by simpa using hget⟩
      · rintro ⟨k, hk, rfl, hget⟩
        cases k with
        | zero => exact absurd (by simpa using hget) hr
        | succ m =>
          refine ⟨m, by simpa using hk, by omega, ?_⟩
          simpa using hget

theorem resetIndicesFrom_lower {α : Type} (rst : α → Option Bool) (l : List α) (i j : Nat)
    (hj : j ∈ resetIndicesFrom rst i l) : i ≤ j := by
  obtain ⟨k, hk, rfl, -⟩ := (mem_resetIndicesFrom rst l i j).mp hj
  omega

theorem resetIndicesFrom_upper {α : Type} (rst : α → Option Bool) (l : List α) (i j : Nat)
    (hj : j ∈ resetIndicesFrom rst i l) : j < i + l.length := by
  obtain ⟨k, hk, rfl, -⟩ := (mem_resetIndicesFrom rst l i j).mp hj
  omega

theorem resetIndicesFrom_pairwise {α : Type} (rst : α → Option Bool) (l : List α) (i : Nat) :
    (resetIndicesFrom rst i l).Pairwise (· < ·) := by
  induction l generalizing i with
  | nil => simp [resetIndicesFrom]
  | cons r rs ih =>
    by_cases hr : rst r = some true
    · simp only [resetIndicesFrom, hr, if_true]
      refine List.pairwise_cons.mpr ⟨?_, ih (i + 1)⟩
      intro j hj
      have := resetIndicesFrom_lower rst rs (i + 1) j hj
      omega
    · simp only [resetIndicesFrom, hr, if_false]
      exact ih (i + 1)

theorem resetIndicesFrom_eq_nil {α : Type} (rst : α → Option Bool) (l : List α) (i : Nat) :
    resetIndicesFrom rst i l = [] ↔ ∀ r ∈ l, rst r ≠ some true := by
  induction l generalizing i with
  | nil => simp [resetIndicesFrom]
  | cons r rs ih =>
    by_cases hr : rst r = some true
    · simp [resetIndicesFrom, hr]
    · simp [resetIndicesFrom, hr, ih (i + 1)]

theorem length_intervalCounts (R : List Nat) : (intervalCounts R).length = R.length := by
  cases R with
  | nil => rfl
  | cons r rest =>
    simp only [intervalCounts, List.length_cons, List.length_zipWith]
    omega

theorem lookup_zip_of_not_mem {β : Type} (R : List Nat) (cs : List β) (x : Nat)
    (hx : x ∉ R) : List.lookup x (R.zip cs) = none := by
  induction R generalizing cs with
  | nil => simp [List.lookup]
  | cons r R' ih =>
    cases cs with
    | nil => simp [List.lookup]
    | cons c cs' =>
      have hxr : x ≠ r := fun h => hx (h ▸ List.mem_cons_self r R')
      have : x ∉ R' := fun h => hx (List.mem_cons_of_mem r h)
      simpa [List.zip_cons_cons, List.lookup, beq_eq_false_iff_ne.mpr hxr] using ih cs' this

theorem lookup_cons_ne {β : Type} (k r : Nat) (c : β) (ps : List (Nat × β)) (h : k ≠ r) :
    List.lookup k ((r, c) :: ps) = List.lookup k ps := by
  simp [List.lookup, beq_eq_false_iff_ne.mpr h]

theorem lookup_zip_get {β : Type} (R : List Nat) (cs : List β)
    (hp : R.Pairwise (· < ·)) (k : Nat) (hk : k < R.length) (hlen : R.length = cs.length) :
    List.lookup (R.get ⟨k, hk⟩) (R.zip cs) = some (cs.get ⟨k, hlen ▸ hk⟩) := by
  induction R generalizing cs k with
  | nil => exact absurd hk (by simp)
  | cons r R' ih =>
    cases cs with
    | nil => exact absurd hlen (by simp)
    | cons c cs' =>
      obtain ⟨hhead, htail⟩ := List.pairwise_cons.mp hp
      cases k with
      | zero => simp [List.lookup]
      | succ m =>
        have hm : m < R'.length := by simpa using hk
        have hne : R'.get ⟨m, hm⟩ ≠ r := by
          have := hhead _ (List.get_mem R' m hm)
          omega
        have hlen' : R'.length = cs'.length := by simpa using hlen
        have hstep : (r :: R').get ⟨m + 1, hk⟩ = R'.get ⟨m, hm⟩ := rfl
        rw [hstep, List.zip_cons_cons, lookup_cons_ne _ _ _ _ hne, ih cs' htail m hm hlen']
        rfl

theorem filterMap_lookup_range' (R : List Nat) (cs : List Int) (s n : Nat)
    (hp : R.Pairwise (· < ·)) (hbound : ∀ j ∈ R, s ≤ j ∧ j < s + n)
    (hlen : R.length = cs.length) :
    (List.range' s n).filterMap (fun i => List.lookup i (R.zip cs)) = cs := by
  induction R generalizing cs s n with
  | nil =>
    cases cs with
    | nil =>
      apply List.filterMap_eq_nil_iff.mpr
      intro a _
      simp [List.lookup]
    | cons c cs' => exact absurd hlen (by simp)
  | cons r R' ih =>
    cases cs with
    | nil => exact absurd hlen (by simp)
    | cons c cs' =>
      obtain ⟨hhead, htail⟩ := List.pairwise_cons.mp hp
      obtain ⟨hsr, hrn⟩ := hbound r (List.mem_cons_self r R')
      have hsplit : List.range' s (r - s) ++ List.range' r (n - (r - s)) = List.range' s n := by
        have := List.range'_append s (r - s) (n - (r - s)) 1
        simp only [Nat.one_mul] at this
        rw [show s + (r - s) = r by omega] at this
        rw [show n - (r - s) + (r - s) = n by omega] at this
        exact this
      rw [← hsplit, List.filterMap_append]
      have hfirst : (List.range' s (r - s)).filterMap
          (fun i => List.lookup i ((r :: R').zip (c :: cs'))) = [] := by
        apply List.filterMap_eq_nil_iff.mpr
        intro a ha
        have halt : a < r := by
          have := List.mem_range'_1.mp ha
          omega
        apply lookup_zip_of_not_mem
        intro hmem
        rcases List.mem_cons.mp hmem with rfl | hmem'
        · omega
        · have := hhead a hmem'
          omega
      have hpos : n - (r - s) = (n - (r - s) - 1) + 1 := by omega
      rw [hfirst, List.nil_append, hpos, List.range'_succ]
      have hheadlk : List.lookup r ((r :: R').zip (c :: cs')) = some c := by
        simp [List.zip_cons_cons, List.lookup]
      rw [List.filterMap_cons, hheadlk]
      have htaillk : (List.range' (r + 1) (n - (r - s) - 1)).filterMap
          (fun i => List.lookup i ((r :: R').zip (c :: cs'))) =
          (List.range' (r + 1) (n - (r - s) - 1)).filterMap
          (fun i => List.lookup i (R'.zip cs')) := by
        apply List.filterMap_congr
        intro a ha
        have : r + 1 ≤ a := by
          have := List.mem_range'_1.mp ha
          omega
        have hne : a ≠ r := by omega
        simp [List.zip_cons_cons, List.lookup, beq_eq_false_iff_ne.mpr hne, List.zip]
      rw [htaillk, ih cs' (r + 1) (n - (r - s) - 1) htail ?_ (by simpa using hlen)]
      intro j hj
      have h1 := hhead j hj
      have h2 := (hbound j (List.mem_cons_of_mem r hj)).2
      omega

theorem sum_intervalCounts (r : Nat) (rest : List Nat) :
    (intervalCounts (r :: rest)).sum =
      ((r :: rest).getLastD 0 : Int) - (rest.length : Int) := by
  induction rest generalizing r with
  | nil => simp [intervalCounts]
  | cons s rest' ih =>
    have hexp : intervalCounts (r :: s :: rest') =
        (r : Int) :: ((s : Int) - (r : Int) - 1) ::
          List.zipWith (fun a b : Nat => (b : Int) - (a : Int) - 1) (s :: rest') rest' := by
      simp [intervalCounts]
    have hih := ih s
    have hexp' : intervalCounts (s :: rest') =
        (s : Int) :: List.zipWith (fun a b : Nat => (b : Int) - (a : Int) - 1) (s :: rest') rest' := by
      simp [intervalCounts]
    rw [hexp'] at hih
    simp only [List.sum_cons] at hih
    rw [hexp]
    simp only [List.sum_cons]
    rw [List.getLastD_cons, List.getLastD_cons] at *
    simp only [List.length_cons]
    push_cast
    omega

theorem missingFilter_isEmpty (req cols : List String) (h : ∀ c ∈ req, c ∈ cols) :
    (req.filter (fun c => !cols.contains c)).isEmpty = true := by
  have hnil : req.filter (fun c => !cols.contains c) = [] := by
    rw [List.filter_eq_nil_iff]
    intro c hc
    simp only [Bool.not_eq_true', Bool.not_eq_true, Bool.not_eq_false]
    exact List.elem_iff.mpr (h c hc)
  rw [hnil]
  rfl

theorem calcBetweenDF_guard {α : Type} (cols : List String) (ts : α → Int)
    (rst : α → Option Bool) (rows : List α) (hcols : ∀ c ∈ calcRequiredColumns, c ∈ cols) :
    calcBetweenDF cols ts rst rows =
      .ok (match countCore ts rst rows with
           | .error _ => none
           | .ok r => r) := by
  unfold calcBetweenDF
  rw [missingFilter_isEmpty _ _ hcols]
  rfl

theorem countCore_eq_of_pos {α : Type} (ts : α → Int) (rst : α → Option Bool)
    (rows : List α) (hsome : ∀ r ∈ rows, (rst r).isSome)
    (hres : ∃ r ∈ rows, rst r = some true) :
    countCore ts rst rows = .ok (some ((List.insertionSort (keyLE ts) rows).zip
      (countsColumn ((resetIndices rst (List.insertionSort (keyLE ts) rows)).zip
          (intervalCounts (resetIndices rst (List.insertionSort (keyLE ts) rows))))
        (List.insertionSort (keyLE ts) rows).length))) := by
  have hperm := List.perm_insertionSort (keyLE ts) rows
  have hmask : (List.insertionSort (keyLE ts) rows).any (fun r => (rst r).isNone) = false := by
    rw [List.any_eq_false]
    intro r hr
    have hs := hsome r (hperm.mem_iff.mp hr)
    intro hcontra
    rw [Option.isNone_iff_eq_none] at hcontra
    rw [hcontra] at hs
    simp at hs
  have hne : resetIndices rst (List.insertionSort (keyLE ts) rows) ≠ [] := by
    obtain ⟨r, hrmem, hrt⟩ := hres
    intro hnil
    exact (resetIndicesFrom_eq_nil rst _ 0).mp hnil r (hperm.mem_iff.mpr hrmem) hrt
  obtain ⟨r, rest, hR⟩ : ∃ r rest,
      resetIndices rst (List.insertionSort (keyLE ts) rows) = r :: rest := by
    cases hE : resetIndices rst (List.insertionSort (keyLE ts) rows) with
    | nil => exact absurd hE hne
    | cons a l => exact ⟨a, l, rfl⟩
  unfold countCore
  rw [hmask, hR]
  rfl

theorem countCore_err_of_none {α : Type} (ts : α → Int) (rst : α → Option Bool)
    (rows : List α) (h : ∃ r ∈ rows, rst r = none) :
    countCore ts rst rows = .error () := by
  have hperm := List.perm_insertionSort (keyLE ts) rows
  have hmask : (List.insertionSort (keyLE ts) rows).any (fun r => (rst r).isNone) = true := by
    rw [List.any_eq_true]
    obtain ⟨r, hm, hn⟩ := h
    exact ⟨r, hperm.mem_iff.mpr hm, by rw [hn]; rfl⟩
  unfold countCore
  rw [hmask]
  rfl

theorem countCore_of_notrue {α : Type} (ts : α → Int) (rst : α → Option Bool)
    (rows : List α) (h : ∀ r ∈ rows, rst r ≠ some true) :
    countCore ts rst rows = .error () ∨ countCore ts rst rows = .ok none := by
  have hperm := List.perm_insertionSort (keyLE ts) rows
  cases hmask : (List.insertionSort (keyLE ts) rows).any (fun r => (rst r).isNone) with
  | true =>
    left
    unfold countCore
    rw [hmask]
    rfl
  | false =>
    right
    have hnil : resetIndices rst (List.insertionSort (keyLE ts) rows) = [] :=
      (resetIndicesFrom_eq_nil _ _ 0).mpr (fun r hr => h r (hperm.mem_iff.mp hr))
    unfold countCore
    rw [hmask, hnil]
    rfl

theorem intervalCounts_getD (R : List Nat) (k : Nat) (hk : k < R.length) :
    (intervalCounts R).getD k 0 =
      if k = 0 then (R.getD 0 0 : Int)
      else ((R.getD k 0 : Int) - (R.getD (k - 1) 0 : Int) - 1) := by
  cases R with
  | nil => exact absurd hk (by simp)
  | cons r rest =>
    cases k with
    | zero => simp [intervalCounts]
    | succ m =>
      have hm : m < rest.length := by simpa using hk
      have hz : m < (List.zipWith (fun a b : Nat => (b : Int) - (a : Int) - 1)
          (r :: rest) rest).length := by
        rw [List.length_zipWith]
        simp only [List.length_cons]
        omega
      have hm1 : m < (r :: rest).length := by simp; omega
      rw [show intervalCounts (r :: rest) = (r : Int) ::
          List.zipWith (fun a b : Nat => (b : Int) - (a : Int) - 1) (r :: rest) rest from rfl]
      rw [List.getD_cons_succ, List.getD_eq_getElem _ _ hz, List.getElem_zipWith]
      have e1 : (r :: rest).getD (m + 1) 0 = rest.getD m 0 := List.getD_cons_succ
      have e2 : rest.getD m 0 = rest[m] := List.getD_eq_getElem _ _ hm
      have e3 : (r :: rest).getD m 0 = (r :: rest)[m] := List.getD_eq_getElem _ _ hm1
      simp only [Nat.succ_ne_zero, if_false, Nat.add_sub_cancel, e1, e2, e3]

/-- **C2**: on a flagged sequence with at least one reset, the Interval Counter
returns the timestamp-sorted rows with an attached count column in which the
first reset position `R[0]` carries `R[0]`, the `k`-th reset position carries
`R[k] - R[k-1] - 1`, and every non-reset position carries no count. -/
theorem interval_counter_c2 (df : FlagDF)
    (hcols : ∀ c ∈ calcRequiredColumns, c ∈ df.columns)
    (hsome : ∀ r ∈ df.rows, r.resets.isSome)
    (hres : ∃ r ∈ df.rows, r.resets = some true) :
    ∃ out, calculate_trades_between_resets df = .ok (some out) ∧
      out.map Prod.fst = sortedFlags df ∧
      (∀ k, k < (resetIndicesF df).length →
        (out.getD ((resetIndicesF df).getD k 0) dFC).2 =
          some (if k = 0 then ((resetIndicesF df).getD 0 0 : Int)
                else ((resetIndicesF df).getD k 0 : Int) -
                     ((resetIndicesF df).getD (k - 1) 0 : Int) - 1)) ∧
      (∀ i, i < out.length → i ∉ resetIndicesF df → (out.getD i dFC).2 = none) := by
  have hcore := countCore_eq_of_pos (fun r : FlagRow => r.trade_timestamp)
    (fun r => r.resets) df.rows hsome hres
  have hcalc : calculate_trades_between_resets df = .ok (some ((sortedFlags df).zip
      (countsColumn ((resetIndicesF df).zip (intervalCounts (resetIndicesF df)))
        (sortedFlags df).length))) := by
    unfold calculate_trades_between_resets
    rw [calcBetweenDF_guard _ _ _ _ hcols, hcore]
    rfl
  set sorted := sortedFlags df with hsorted
  set R := resetIndicesF df with hRdef
  set col := countsColumn (R.zip (intervalCounts R)) sorted.length with hcol
  have hcollen : col.length = sorted.length := by
    rw [hcol, countsColumn, List.length_map, List.length_range]
  have houtlen : (sorted.zip col).length = sorted.length := by
    rw [List.length_zip, hcollen, Nat.min_self]
  have hpair : R.Pairwise (· < ·) := resetIndicesFrom_pairwise _ _ 0
  have hcslen : R.length = (intervalCounts R).length := (length_intervalCounts R).symm
  have hRbound : ∀ j ∈ R, j < sorted.length := by
    intro j hj
    have := resetIndicesFrom_upper (fun r : FlagRow => r.resets) sorted 0 j hj
    omega
  have hcolget : ∀ i, i < sorted.length →
      col.getD i none = List.lookup i (R.zip (intervalCounts R)) := by
    intro i hi
    have hir : i < (List.range sorted.length).length := by
      rw [List.length_range]; exact hi
    have hstep : col.getD i none = ((List.range sorted.length).map
        (fun j => List.lookup j (R.zip (intervalCounts R)))).getD i none := rfl
    have him : i < ((List.range sorted.length).map
        (fun j => List.lookup j (R.zip (intervalCounts R)))).length := by
      rw [List.length_map]; exact hir
    rw [hstep, List.getD_eq_getElem _ _ him, List.getElem_map, List.getElem_range]
  have hzipget : ∀ i, i < sorted.length →
      ((sorted.zip col).getD i dFC).2 = List.lookup i (R.zip (intervalCounts R)) := by
    intro i hi
    have hi2 : i < (sorted.zip col).length := by rw [houtlen]; exact hi
    rw [List.getD_eq_getElem _ _ hi2, List.getElem_zip]
    have hi3 : i < col.length := by rw [hcollen]; exact hi
    have := hcolget i hi
    rw [List.getD_eq_getElem _ _ hi3] at this
    exact this
  refine ⟨sorted.zip col, hcalc, ?_, ?_, ?_⟩
  · exact List.map_fst_zip sorted col (le_of_eq hcollen.symm)
  · intro k hk
    have hget : R.getD k 0 = R.get ⟨k, hk⟩ := List.getD_eq_getElem _ _ hk
    have hmem : R.get ⟨k, hk⟩ ∈ R := List.get_mem R k hk
    have hlt : R.get ⟨k, hk⟩ < sorted.length := hRbound _ hmem
    have hkc : k < (intervalCounts R).length := hcslen ▸ hk
    have h1 : ((sorted.zip col).getD (R.getD k 0) dFC).2 =
        List.lookup (R.get ⟨k, hk⟩) (R.zip (intervalCounts R)) := by
      rw [hget]
      exact hzipget _ hlt
    have h2 := lookup_zip_get R (intervalCounts R) hpair k hk hcslen
    have h3 : (intervalCounts R).get ⟨k, hcslen ▸ hk⟩ = (intervalCounts R).getD k 0 :=
      (List.getD_eq_getElem _ _ hkc).symm
    rw [h1, h2, h3, intervalCounts_getD R k hk]
  · intro i hi hnot
    have hi' : i < sorted.length := by rw [houtlen] at hi; exact hi
    rw [hzipget _ hi', lookup_zip_of_not_mem _ _ _ hnot]

/-- Witness for C2 at a two-reset input. -/
theorem interval_counter_c2_witness :
    (∀ c ∈ calcRequiredColumns,
        c ∈ (⟨calcRequiredColumns,
          [⟨1, some false⟩, ⟨2, some true⟩, ⟨3, some false⟩, ⟨4, some false⟩,
           ⟨5, some true⟩]⟩ : FlagDF).columns) ∧
    (∃ out, calculate_trades_between_resets (⟨calcRequiredColumns,
          [⟨1, some false⟩, ⟨2, some true⟩, ⟨3, some false⟩, ⟨4, some false⟩,
           ⟨5, some true⟩]⟩ : FlagDF) = .ok (some out) ∧
      out.map Prod.fst = sortedFlags ⟨calcRequiredColumns,
          [⟨1, some false⟩, ⟨2, some true⟩, ⟨3, some false⟩, ⟨4, some false⟩,
           ⟨5, some true⟩]⟩ ∧
      (∀ k, k < (resetIndicesF ⟨calcRequiredColumns,
          [⟨1, some false⟩, ⟨2, some true⟩, ⟨3, some false⟩, ⟨4, some false⟩,
           ⟨5, some true⟩]⟩).length →
        (out.getD ((resetIndicesF ⟨calcRequiredColumns,
          [⟨1, some false⟩, ⟨2, some true⟩, ⟨3, some false⟩, ⟨4, some false⟩,
           ⟨5, some true⟩]⟩).getD k 0) dFC).2 =
          some (if k = 0 then ((resetIndicesF ⟨calcRequiredColumns,
          [⟨1, some false⟩, ⟨2, some true⟩, ⟨3, some false⟩, ⟨4, some false⟩,
           ⟨5, some true⟩]⟩).getD 0 0 : Int)
                else ((resetIndicesF ⟨calcRequiredColumns,
          [⟨1, some false⟩, ⟨2, some true⟩, ⟨3, some false⟩, ⟨4, some false⟩,
           ⟨5, some true⟩]⟩).getD k 0 : Int) -
                     ((resetIndicesF ⟨calcRequiredColumns,
          [⟨1, some false⟩, ⟨2, some true⟩, ⟨3, some false⟩, ⟨4, some false⟩,
           ⟨5, some true⟩]⟩).getD (k - 1) 0 : Int) - 1)) ∧
      (∀ i, i < out.length → i ∉ resetIndicesF ⟨calcRequiredColumns,
          [⟨1, some false⟩, ⟨2, some true⟩, ⟨3, some false⟩, ⟨4, some false⟩,
           ⟨5, some true⟩]⟩ → (out.getD i dFC).2 = none)) :=
  ⟨by decide, interval_counter_c2 _ (by decide) (by decide) (by decide)⟩

/-- **C3 counterexample**: a three-row sequence `[no-reset, reset, no-reset]`.
The single interval count is 1, but `total_rows - number_of_resets = 2`: the
trailing non-reset row after the last reset is counted by the claim's formula
but never enters any interval count. -/
theorem interval_counter_c3_counterexample :
    calculate_trades_between_resets
        (⟨calcRequiredColumns,
          [⟨1, some false⟩, ⟨2, some true⟩, ⟨3, some false⟩]⟩ : FlagDF) =
      .ok (some
        [(⟨1, some false⟩, none), (⟨2, some true⟩, some 1), (⟨3, some false⟩, none)]) ∧
    sumCounts
        [(⟨1, some false⟩, none), (⟨2, some true⟩, some 1), (⟨3, some false⟩, none)] = 1 ∧
    ((⟨calcRequiredColumns,
        [⟨1, some false⟩, ⟨2, some true⟩, ⟨3, some false⟩]⟩ : FlagDF).rows.length : Int) -
      (numResets (⟨calcRequiredColumns,
        [⟨1, some false⟩, ⟨2, some true⟩, ⟨3, some false⟩]⟩ : FlagDF).rows : Int) = 2 :=
  ⟨rfl, by decide, by decide⟩

/-- **C3 amended**: on a flagged sequence with at least one reset, the sum of
all interval counts equals the position of the last reset minus (number of
resets − 1), i.e. the number of non-reset rows strictly before the last reset;
it equals `total_rows - number_of_resets` exactly when the final sorted row is
a reset. -/
theorem interval_counter_c3_amended (df : FlagDF)
    (hcols : ∀ c ∈ calcRequiredColumns, c ∈ df.columns)
    (hsome : ∀ r ∈ df.rows, r.resets.isSome)
    (hres : ∃ r ∈ df.rows, r.resets = some true) :
    ∃ out, calculate_trades_between_resets df = .ok (some out) ∧
      sumCounts out = ((resetIndicesF df).getLastD 0 : Int) -
        (((resetIndicesF df).length : Int) - 1) := by
  have hcore := countCore_eq_of_pos (fun r : FlagRow => r.trade_timestamp)
    (fun r => r.resets) df.rows hsome hres
  have hcalc : calculate_trades_between_resets df = .ok (some ((sortedFlags df).zip
      (countsColumn ((resetIndicesF df).zip (intervalCounts (resetIndicesF df)))
        (sortedFlags df).length))) := by
    unfold calculate_trades_between_resets
    rw [calcBetweenDF_guard _ _ _ _ hcols, hcore]
    rfl
  set sorted := sortedFlags df with hsorted
  set R := resetIndicesF df with hRdef
  set col := countsColumn (R.zip (intervalCounts R)) sorted.length with hcol
  have hcollen : col.length = sorted.length := by
    rw [hcol, countsColumn, List.length_map, List.length_range]
  have hpair : R.Pairwise (· < ·) := resetIndicesFrom_pairwise _ _ 0
  have hcslen : R.length = (intervalCounts R).length := (length_intervalCounts R).symm
  have hne : R ≠ [] := by
    obtain ⟨r, hrmem, hrt⟩ := hres
    intro hnil
    exact (resetIndicesFrom_eq_nil (fun r : FlagRow => r.resets) sorted 0).mp hnil r
      ((List.perm_insertionSort _ df.rows).mem_iff.mpr hrmem) hrt
  refine ⟨sorted.zip col, hcalc, ?_⟩
  have hsnd : (sorted.zip col).map Prod.snd = col :=
    List.map_snd_zip sorted col (le_of_eq hcollen)
  have hfm1 : (sorted.zip col).filterMap Prod.snd = col.filterMap id := by
    have h := List.filterMap_map Prod.snd id (sorted.zip col)
    rw [hsnd, Function.id_comp] at h
    exact h.symm
  have hfm2 : col.filterMap id = intervalCounts R := by
    have hmap : col = (List.range sorted.length).map
        (fun j => List.lookup j (R.zip (intervalCounts R))) := rfl
    rw [hmap, List.filterMap_map, Function.id_comp, List.range_eq_range']
    exact filterMap_lookup_range' R (intervalCounts R) 0 sorted.length hpair
      (fun j hj => ⟨Nat.zero_le j, by
        have := resetIndicesFrom_upper (fun r : FlagRow => r.resets) sorted 0 j hj
        omega⟩) hcslen
  obtain ⟨r, rest, hRrr⟩ : ∃ r rest, R = r :: rest := by
    cases hE : R with
    | nil => exact absurd hE hne
    | cons a l => exact ⟨a, l, rfl⟩
  rw [sumCounts, hfm1, hfm2, hRrr, sum_intervalCounts]
  simp only [List.length_cons]
  push_cast
  ring

/-- Witness for the amended C3 at a two-reset input with a trailing row. -/
theorem interval_counter_c3_amended_witness :
    (∀ c ∈ calcRequiredColumns,
        c ∈ (⟨calcRequiredColumns,
          [⟨1, some true⟩, ⟨2, some false⟩, ⟨3, some true⟩,
           ⟨4, some false⟩]⟩ : FlagDF).columns) ∧
    (∃ out, calculate_trades_between_resets (⟨calcRequiredColumns,
          [⟨1, some true⟩, ⟨2, some false⟩, ⟨3, some true⟩,
           ⟨4, some false⟩]⟩ : FlagDF) = .ok (some out) ∧
      sumCounts out = ((resetIndicesF ⟨calcRequiredColumns,
          [⟨1, some true⟩, ⟨2, some false⟩, ⟨3, some true⟩,
           ⟨4, some false⟩]⟩).getLastD 0 : Int) -
        (((resetIndicesF ⟨calcRequiredColumns,
          [⟨1, some true⟩, ⟨2, some false⟩, ⟨3, some true⟩,
           ⟨4, some false⟩]⟩).length : Int) - 1)) :=
  ⟨by decide, interval_counter_c3_amended _ (by decide) (by decide) (by decide)⟩

/-- **C10**: once the type and required-column checks pass, the Interval
Counter never raises: every internal failure (here: masking on an NA `resets`
cell) and the zero-resets case both collapse to the indistinguishable `None`
result. -/
theorem interval_counter_c10 (df : FlagDF)
    (hcols : ∀ c ∈ calcRequiredColumns, c ∈ df.columns) :
    (∃ r, calculate_trades_between_resets df = .ok r) ∧
    (((∃ row ∈ df.rows, row.resets = none) ∨ (∀ row ∈ df.rows, row.resets ≠ some true)) →
      calculate_trades_between_resets df = .ok none) := by
  have hguard := calcBetweenDF_guard df.columns (fun r : FlagRow => r.trade_timestamp)
    (fun r => r.resets) df.rows hcols
  constructor
  · exact ⟨_, hguard⟩
  · rintro (hnone | hnotrue)
    · have herr := countCore_err_of_none (fun r : FlagRow => r.trade_timestamp)
        (fun r => r.resets) df.rows hnone
      show calcBetweenDF df.columns (fun r : FlagRow => r.trade_timestamp)
        (fun r => r.resets) df.rows = .ok none
      rw [hguard, herr]
    · rcases countCore_of_notrue (fun r : FlagRow => r.trade_timestamp)
        (fun r => r.resets) df.rows hnotrue with h | h
      · show calcBetweenDF df.columns (fun r : FlagRow => r.trade_timestamp)
          (fun r => r.resets) df.rows = .ok none
        rw [hguard, h]
      · show calcBetweenDF df.columns (fun r : FlagRow => r.trade_timestamp)
          (fun r => r.resets) df.rows = .ok none
        rw [hguard, h]

/-- Witness for C10 at an input whose only row carries an NA `resets` cell. -/
theorem interval_counter_c10_witness :
    (∀ c ∈ calcRequiredColumns,
        c ∈ (⟨calcRequiredColumns, [⟨1, none⟩]⟩ : FlagDF).columns) ∧
    ((∃ r, calculate_trades_between_resets
        (⟨calcRequiredColumns, [⟨1, none⟩]⟩ : FlagDF) = .ok r) ∧
     (((∃ row ∈ (⟨calcRequiredColumns, [⟨1, none⟩]⟩ : FlagDF).rows, row.resets = none) ∨
        (∀ row ∈ (⟨calcRequiredColumns, [⟨1, none⟩]⟩ : FlagDF).rows,
          row.resets ≠ some true)) →
       calculate_trades_between_resets
        (⟨calcRequiredColumns, [⟨1, none⟩]⟩ : FlagDF) = .ok none)) :=
  ⟨by decide, interval_counter_c10 _ (by decide)⟩

/-- Modelled from the spec: `calculate_minutes_between_executed_auctions` is
imported from the resets module by `main.py` (lines 8-12) and applied to the
trade-timestamp column (line 116), but its definition is absent from the
sources.  Spec section 4.3 gives its contract: one value per input element,
element k being the minutes elapsed since element k-1, null for k = 0.
Timestamps are epoch seconds, so minutes are the difference divided by 60
(exact rational arithmetic standing in for the float result). -/
def calculate_minutes_between_executed_auctions (ts : List Int) : List (Option ℚ) :=
  match ts with
  | [] => []
  | t :: rest =>
    none :: List.zipWith (fun a b : Int => some (((b : ℚ) - (a : ℚ)) / 60)) (t :: rest) rest

/-- **C9**: the Auxiliary Interval Metric returns one value per input element;
element 0 is null and element k (k ≥ 1) is the minutes elapsed between
timestamps k-1 and k. -/
theorem aux_metric_c9 (ts : List Int) :
    (calculate_minutes_between_executed_auctions ts).length = ts.length ∧
    (ts ≠ [] → (calculate_minutes_between_executed_auctions ts).getD 0 (some 0) = none) ∧
    (∀ k, k + 1 < ts.length →
      (calculate_minutes_between_executed_auctions ts).getD (k + 1) none =
        some (((ts.getD (k + 1) 0 : ℚ) - (ts.getD k 0 : ℚ)) / 60)) := by
  cases ts with
  | nil =>
    refine ⟨rfl, fun h => absurd rfl h, ?_⟩
    intro k hk
    exact absurd hk (by simp)
  | cons t rest =>
    refine ⟨?_, fun _ => rfl, ?_⟩
    · show (none :: List.zipWith _ (t :: rest) rest).length = (t :: rest).length
      rw [List.length_cons, List.length_cons, List.length_zipWith]
      simp only [List.length_cons]
      omega
    · intro k hk
      have hkr : k < rest.length := by simpa using hk
      have hkz : k < (List.zipWith (fun a b : Int => some (((b : ℚ) - (a : ℚ)) / 60))
          (t :: rest) rest).length := by
        rw [List.length_zipWith]
        simp only [List.length_cons]
        omega
      have hk1 : k < (t :: rest).length := by simp; omega
      show (none :: List.zipWith _ (t :: rest) rest).getD (k + 1) none = _
      rw [List.getD_cons_succ, List.getD_eq_getElem _ _ hkz, List.getElem_zipWith]
      have e1 : (t :: rest).getD (k + 1) 0 = rest.getD k 0 := List.getD_cons_succ
      have e2 : rest.getD k 0 = rest[k] := List.getD_eq_getElem _ _ hkr
      have e3 : (t :: rest).getD k 0 = (t :: rest)[k] := List.getD_eq_getElem _ _ hk1
      rw [e1, e2, e3]

/-- Witness for C9 at the timestamp list `[0, 120, 300]`. -/
theorem aux_metric_c9_witness :
    (calculate_minutes_between_executed_auctions [0, 120, 300]).length = 3 ∧
    (([0, 120, 300] : List Int) ≠ [] →
      (calculate_minutes_between_executed_auctions [0, 120, 300]).getD 0 (some 0) = none) ∧
    (∀ k, k + 1 < ([0, 120, 300] : List Int).length →
      (calculate_minutes_between_executed_auctions [0, 120, 300]).getD (k + 1) none =
        some (((([0, 120, 300] : List Int).getD (k + 1) 0 : ℚ) -
          (([0, 120, 300] : List Int).getD k 0 : ℚ)) / 60)) :=
  aux_metric_c9 [0, 120, 300]

/-- One row of the concatenated all-trades frame built by the Reconciler
(`resets.py` line 147): the three selected columns.  Also the shape of the
strategy-trades rows it consumes (same three columns). -/
structure ARow where
  tx_hash : String
  trade_timestamp : Int
  resets : Bool
deriving Repr, DecidableEq

/-- The strategy-trades frame passed to the Reconciler. -/
structure StratDF where
  columns : List String
  rows : List ARow
deriving Repr, DecidableEq

/-- One row of the market-trades (reference) frame: no `resets` column. -/
structure MRow where
  tx_hash : String
  trade_timestamp : Int
deriving Repr, DecidableEq

/-- The market-trades frame passed to the Reconciler; its column labels are
state the Reconciler mutates in place (`rename(..., inplace=True)`). -/
structure MarketDF where
  columns : List String
  rows : List MRow
deriving Repr, DecidableEq

/-- The in-place column rename of `resets.py` line 119: every `datetime` label
becomes `trade_timestamp`. -/
def renameMarketColumns (cols : List String) : List String :=
  cols.map (fun c => if c = "datetime" then "trade_timestamp" else c)

/-- A market row entering the concatenated frame: its `resets` cell is NaN and
is filled with `False` then cast to bool (`resets.py` lines 151-152). -/
def marketToARow (r : MRow) : ARow :=
  ⟨r.tx_hash, r.trade_timestamp, false⟩

/-- Lexicographic string comparison on the character sequence, the order
pandas uses when sorting the `tx_hash` column. -/
def strLT (a b : String) : Prop := a.data < b.data

/-- Sort key of `resets.py` line 173 for the `resets` column: descending, so
`True` sorts first. -/
def resetsKey (r : ARow) : Nat := if r.resets then 0 else 1

/-- The `sort_values(by=[tx_hash, trade_timestamp, resets],
ascending=[True, True, False])` order of `resets.py` line 173. -/
def dedupLE (a b : ARow) : Prop :=
  strLT a.tx_hash b.tx_hash ∨ (a.tx_hash = b.tx_hash ∧
    (a.trade_timestamp < b.trade_timestamp ∨ (a.trade_timestamp = b.trade_timestamp ∧
      resetsKey a ≤ resetsKey b)))

instance : DecidableRel strLT := fun a b => inferInstanceAs (Decidable (a.data < b.data))

instance : DecidableRel dedupLE := fun a b =>
  inferInstanceAs (Decidable (_ ∨ (_ ∧ (_ ∨ (_ ∧ _)))))

theorem strLT_trichotomy (a b : String) : strLT a b ∨ a = b ∨ strLT b a := by
  rcases lt_trichotomy a.data b.data with h | h | h
  · exact Or.inl h
  · refine Or.inr (Or.inl ?_)
    cases a
    cases b
    exact congrArg String.mk h
  · exact Or.inr (Or.inr h)

theorem strLT_asymm (a b : String) (h : strLT a b) : ¬ strLT b a :=
  fun h' => absurd (lt_trans (α := List Char) h h') (lt_irrefl _)

theorem strLT_irrefl (a : String) : ¬ strLT a a := lt_irrefl a.data

instance : IsTotal ARow dedupLE := by
  constructor
  intro a b
  rcases strLT_trichotomy a.tx_hash b.tx_hash with h | h | h
  · exact Or.inl (Or.inl h)
  · rcases lt_trichotomy a.trade_timestamp b.trade_timestamp with h' | h' | h'
    · exact Or.inl (Or.inr ⟨h, Or.inl h'⟩)
    · rcases Nat.le_total (resetsKey a) (resetsKey b) with h'' | h''
      · exact Or.inl (Or.inr ⟨h, Or.inr ⟨h', h''⟩⟩)
      · exact Or.inr (Or.inr ⟨h.symm, Or.inr ⟨h'.symm, h''⟩⟩)
    · exact Or.inr (Or.inr ⟨h.symm, Or.inl h'⟩)
  · exact Or.inr (Or.inl h)

instance : IsTrans ARow dedupLE := by
  constructor
  intro a b c hab hbc
  rcases hab with h1 | ⟨e1, h1⟩
  · rcases hbc with h2 | ⟨e2, h2⟩
    · exact Or.inl (lt_trans (α := List Char) h1 h2)
    · exact Or.inl (e2 ▸ h1)
  · rcases hbc with h2 | ⟨e2, h2⟩
    · exact Or.inl (e1 ▸ h2)
    · refine Or.inr ⟨e1.trans e2, ?_⟩
      rcases h1 with h1 | ⟨f1, k1⟩
      · rcases h2 with h2 | ⟨f2, k2⟩
        · exact Or.inl (lt_trans h1 h2)
        · exact Or.inl (f2 ▸ h1)
      · rcases h2 with h2 | ⟨f2, k2⟩
        · exact Or.inl (f1 ▸ h2)
        · exact Or.inr ⟨f1.trans f2, le_trans k1 k2⟩

/-- The `tx_hash` column of a row list. -/
def txList (l : List ARow) : List String := l.map (fun r => r.tx_hash)

/-- `drop_duplicates(subset=[tx_hash], keep=first)` (`resets.py` line 175):
keep the first row carrying each `tx_hash`, in order. -/
def dropDupTxAux (seen : List String) : List ARow → List ARow
  | [] => []
  | r :: rs =>
    if r.tx_hash ∈ seen then dropDupTxAux seen rs
    else r :: dropDupTxAux (r.tx_hash :: seen) rs

/-- The dedup pass over the whole frame. -/
def dropDuplicatesByTx (l : List ARow) : List ARow := dropDupTxAux [] l

/-- `resets == True` filter of the strategy trades (`resets.py` line 116). -/
def stratResetRows (strat : StratDF) : List ARow :=
  strat.rows.filter (fun r => r.resets)

/-- The concatenated frame (`resets.py` lines 147-152): reset-only strategy
rows followed by market rows, NaN `resets` filled `False`. -/
def reconAllRows (strat : StratDF) (market : MarketDF) : List ARow :=
  stratResetRows strat ++ market.rows.map marketToARow

/-- The concatenated frame after the `trade_timestamp` sort of line 155. -/
def reconSorted (strat : StratDF) (market : MarketDF) : List ARow :=
  List.insertionSort (keyLE (fun r : ARow => r.trade_timestamp))
    (reconAllRows strat market)

/-- The frame after the duplicate-handling branch (`resets.py` lines 159-175):
untouched when no `tx_hash` occurs twice, otherwise sorted by
`(tx_hash, trade_timestamp, resets desc)` and deduplicated keep-first. -/
def reconDeduped (strat : StratDF) (market : MarketDF) : List ARow :=
  if (txList (reconSorted strat market)).Nodup then reconSorted strat market
  else dropDuplicatesByTx (List.insertionSort dedupLE (reconSorted strat market))

/-- The body of the Reconciler after the strategy `resets` filter: the column
accesses of lines 122-147 (KeyError when absent), the dedup pass with its
defensive post-condition check (lines 177-179, re-raised by lines 185-187),
and the final interval-count pass whose result is returned as is (lines
189-216). -/
def reconBody (strat : StratDF) (market : MarketDF) :
    Except String (Option (List (ARow × Option Int))) :=
  if "tx_hash" ∉ strat.columns ∨ "trade_timestamp" ∉ strat.columns then
    .error "KeyError: strategy columns"
  else if "tx_hash" ∉ renameMarketColumns market.columns ∨
      "trade_timestamp" ∉ renameMarketColumns market.columns then
    .error "KeyError: market columns"
  else if ¬ (txList (reconDeduped strat market)).Nodup then
    .error "Duplicates where resets == False have not been dropped. Exiting..."
  else
    calcBetweenDF ["tx_hash", "trade_timestamp", "resets"]
      (fun r : ARow => r.trade_timestamp) (fun r => some r.resets)
      (reconDeduped strat market)

/-- `concatenate_strategy_trades_with_market_trades` (`resets.py` lines
101-216).  The `resets` filter of line 116 raises before the market frame is
renamed; afterwards the rename has mutated the caller's market frame, so the
post-call market frame is returned alongside the result. -/
def concatenate_strategy_trades_with_market_trades (strat : StratDF) (market : MarketDF) :
    Except String (Option (List (ARow × Option Int))) × MarketDF :=
  if "resets" ∉ strat.columns then
    (.error "KeyError: resets", market)
  else
    (reconBody strat market, ⟨renameMarketColumns market.columns, market.rows⟩)

/-- **C8 counterexample**: the Reconciler, run on a reference frame whose
timestamp column is labelled `datetime`, leaves the caller's market frame with
a different column list than it had before the call — the in-place rename of
`resets.py` line 119 mutates a caller-owned input. -/
theorem reconciler_c8_counterexample :
    (concatenate_strategy_trades_with_market_trades
        ⟨["tx_hash", "trade_timestamp", "resets"], []⟩
        ⟨["tx_hash", "datetime"], []⟩).snd ≠
      (⟨["tx_hash", "datetime"], []⟩ : MarketDF) := by
  decide

/-- **C8 amended**: the Reset Detector, Interval Counter and Auxiliary Metric
are pure over their inputs (they return fresh collections), but the Reconciler
mutates the caller's market frame in place: whenever the strategy frame
carries a `resets` column (so the filter preceding the rename does not raise),
the market frame's column labels come out of the call with every `datetime`
label renamed to `trade_timestamp`; its rows are unchanged. -/
theorem reconciler_c8_amended (strat : StratDF) (market : MarketDF) :
    (concatenate_strategy_trades_with_market_trades strat market).snd =
      if "resets" ∈ strat.columns
      then ⟨renameMarketColumns market.columns, market.rows⟩
      else market := by
  unfold concatenate_strategy_trades_with_market_trades
  by_cases h : "resets" ∈ strat.columns
  · rw [if_neg (not_not_intro h), if_pos h]
  · rw [if_pos h, if_neg h]

theorem txList_eq_map (l : List ARow) : txList l = l.map (fun r => r.tx_hash) := rfl

theorem dropDupTxAux_filter (l : List ARow) : ∀ (seen : List String) (x : String),
    (dropDupTxAux seen l).filter (fun r => r.tx_hash == x) =
      if x ∈ seen then [] else (l.filter (fun r => r.tx_hash == x)).take 1 := by
  induction l with
  | nil =>
    intro seen x
    by_cases hx : x ∈ seen <;> simp [dropDupTxAux, hx]
  | cons r rs ih =>
    intro seen x
    by_cases hs : r.tx_hash ∈ seen
    · have hstep : dropDupTxAux seen (r :: rs) = dropDupTxAux seen rs := by
        simp [dropDupTxAux, hs]
      rw [hstep, ih seen x]
      by_cases hx : x ∈ seen
      · rw [if_pos hx, if_pos hx]
      · rw [if_neg hx, if_neg hx]
        have hrx : (r.tx_hash == x) = false :=
          beq_eq_false_iff_ne.mpr (fun h => hx (h ▸ hs))
        rw [List.filter_cons, hrx]
        rfl
    · have hstep : dropDupTxAux seen (r :: rs) =
          r :: dropDupTxAux (r.tx_hash :: seen) rs := by
        simp [dropDupTxAux, hs]
      rw [hstep]
      by_cases hrx : r.tx_hash = x
      · subst hrx
        have hxs : r.tx_hash ∉ seen := hs
        rw [if_neg hxs, List.filter_cons]
        have hbeq : (r.tx_hash == r.tx_hash) = true := beq_self_eq_true _
        rw [hbeq]
        have htail : (dropDupTxAux (r.tx_hash :: seen) rs).filter
            (fun r' => r'.tx_hash == r.tx_hash) = [] := by
          rw [ih (r.tx_hash :: seen) r.tx_hash, if_pos (List.mem_cons_self _ _)]
        simp only [if_true, List.filter_cons, hbeq, htail]
        rfl
      · have hbeq : (r.tx_hash == x) = false := beq_eq_false_iff_ne.mpr hrx
        rw [List.filter_cons, hbeq]
        have hcons : (dropDupTxAux (r.tx_hash :: seen) rs).filter
            (fun r' => r'.tx_hash == x) =
            if x ∈ r.tx_hash :: seen then []
            else (rs.filter (fun r' => r'.tx_hash == x)).take 1 := ih _ x
        simp only [Bool.false_eq_true, if_false]
        rw [hcons]
        have hmemiff : (x ∈ r.tx_hash :: seen) ↔ (x ∈ seen) := by
          constructor
          · intro h
            rcases List.mem_cons.mp h with h' | h'
            · exact absurd h'.symm hrx
            · exact h'
          · exact fun h => List.mem_cons_of_mem _ h
        by_cases hx : x ∈ seen
        · rw [if_pos (hmemiff.mpr hx), if_pos hx]
        · rw [if_neg (fun h => hx (hmemiff.mp h)), if_neg hx, List.filter_cons, hbeq]
          rfl

theorem dropDupTxAux_nodup (l : List ARow) : ∀ seen : List String,
    (txList (dropDupTxAux seen l)).Nodup ∧
      ∀ x ∈ txList (dropDupTxAux seen l), x ∉ seen := by
  induction l with
  | nil => intro seen; simp [dropDupTxAux, txList]
  | cons r rs ih =>
    intro seen
    by_cases hs : r.tx_hash ∈ seen
    · have hstep : dropDupTxAux seen (r :: rs) = dropDupTxAux seen rs := by
        simp [dropDupTxAux, hs]
      rw [hstep]
      exact ih seen
    · have hstep : dropDupTxAux seen (r :: rs) =
          r :: dropDupTxAux (r.tx_hash :: seen) rs := by
        simp [dropDupTxAux, hs]
      rw [hstep]
      obtain ⟨hnd, hout⟩ := ih (r.tx_hash :: seen)
      constructor
      · rw [txList_eq_map, List.map_cons, List.nodup_cons]
        refine ⟨?_, hnd⟩
        intro hmem
        exact hout _ hmem (List.mem_cons_self _ _)
      · intro x hx
        rcases List.mem_cons.mp hx with h' | h'
        · exact h' ▸ hs
        · exact fun hxs => hout x h' (List.mem_cons_of_mem _ hxs)

theorem dropDupTxAux_tx_mem (l : List ARow) : ∀ (seen : List String) (x : String),
    x ∈ txList (dropDupTxAux seen l) ↔ x ∉ seen ∧ x ∈ txList l := by
  induction l with
  | nil => intro seen x; simp [dropDupTxAux, txList]
  | cons r rs ih =>
    intro seen x
    by_cases hs : r.tx_hash ∈ seen
    · have hstep : dropDupTxAux seen (r :: rs) = dropDupTxAux seen rs := by
        simp [dropDupTxAux, hs]
      rw [hstep, ih seen x]
      constructor
      · rintro ⟨h1, h2⟩
        exact ⟨h1, by rw [txList_eq_map, List.map_cons]; exact List.mem_cons_of_mem _ h2⟩
      · rintro ⟨h1, h2⟩
        refine ⟨h1, ?_⟩
        rw [txList_eq_map, List.map_cons] at h2
        rcases List.mem_cons.mp h2 with h' | h'
        · exact absurd (h' ▸ hs) h1
        · exact h'
    · have hstep : dropDupTxAux seen (r :: rs) =
          r :: dropDupTxAux (r.tx_hash :: seen) rs := by
        simp [dropDupTxAux, hs]
      rw [hstep]
      rw [txList_eq_map, List.map_cons, List.mem_cons, txList_eq_map (r :: rs),
        List.map_cons, List.mem_cons]
      rw [← txList_eq_map, ih (r.tx_hash :: seen) x]
      constructor
      · rintro (rfl | ⟨h1, h2⟩)
        · exact ⟨hs, Or.inl rfl⟩
        · exact ⟨fun hxs => h1 (List.mem_cons_of_mem _ hxs),
            Or.inr (by rw [txList_eq_map] at h2; exact h2)⟩
      · rintro ⟨h1, rfl | h2⟩
        · exact Or.inl rfl
        · by_cases hxr : x = r.tx_hash
          · exact Or.inl hxr
          · refine Or.inr ⟨?_, by rw [txList_eq_map]; exact h2⟩
            intro hmem
            rcases List.mem_cons.mp hmem with h' | h'
            · exact hxr h'
            · exact h1 h'

theorem filter_tx_len_le_one (l : List ARow) (x : String)
    (hnd : (txList l).Nodup) :
    (l.filter (fun r => r.tx_hash == x)).length ≤ 1 := by
  induction l with
  | nil => simp
  | cons r rs ih =>
    rw [txList_eq_map, List.map_cons, List.nodup_cons] at hnd
    obtain ⟨hr, hrs⟩ := hnd
    by_cases hx : r.tx_hash = x
    · subst hx
      have hnil : rs.filter (fun r' => r'.tx_hash == r.tx_hash) = [] := by
        rw [List.filter_eq_nil_iff]
        intro a ha hcontra
        exact hr (List.mem_map.mpr ⟨a, ha, beq_iff_eq.mp hcontra⟩)
      simp [List.filter_cons, hnil]
    · have hbeq : (r.tx_hash == x) = false := beq_eq_false_iff_ne.mpr hx
      rw [List.filter_cons, hbeq]
      exact ih (by rw [txList_eq_map]; exact hrs)

theorem mask_eq_false {α : Type} (ts : α → Int) (rst : α → Option Bool) (rows : List α)
    (hsome : ∀ r ∈ rows, (rst r).isSome) :
    (List.insertionSort (keyLE ts) rows).any (fun r => (rst r).isNone) = false := by
  rw [List.any_eq_false]
  intro r hr
  have hs := hsome r ((List.perm_insertionSort (keyLE ts) rows).mem_iff.mp hr)
  intro hcontra
  rw [Option.isNone_iff_eq_none] at hcontra
  rw [hcontra] at hs
  simp at hs

theorem countCore_result {α : Type} (ts : α → Int) (rst : α → Option Bool) (rows : List α)
    (hsome : ∀ r ∈ rows, (rst r).isSome) (out : List (α × Option Int))
    (h : countCore ts rst rows = .ok (some out)) :
    out.map Prod.fst = List.insertionSort (keyLE ts) rows := by
  unfold countCore at h
  rw [mask_eq_false ts rst rows hsome] at h
  cases hR : resetIndices rst (List.insertionSort (keyLE ts) rows) with
  | nil =>
    rw [hR] at h
    have h' : (Except.ok none : Except Unit (Option (List (α × Option Int)))) =
        .ok (some out) := h
    simp at h'
  | cons r rest =>
    rw [hR] at h
    have h' : (Except.ok (some ((List.insertionSort (keyLE ts) rows).zip
        (countsColumn ((r :: rest).zip (intervalCounts (r :: rest)))
          (List.insertionSort (keyLE ts) rows).length))) :
        Except Unit (Option (List (α × Option Int)))) = .ok (some out) := h
    have hz : (List.insertionSort (keyLE ts) rows).zip
        (countsColumn ((r :: rest).zip (intervalCounts (r :: rest)))
          (List.insertionSort (keyLE ts) rows).length) = out := by
      have := Except.ok.inj h'
      exact Option.some.inj this
    rw [← hz]
    exact List.map_fst_zip _ _ (le_of_eq (by
      rw [countsColumn, List.length_map, List.length_range]))

theorem reconFst_cases (strat : StratDF) (market : MarketDF)
    (out : List (ARow × Option Int))
    (h : (concatenate_strategy_trades_with_market_trades strat market).fst =
      .ok (some out)) :
    (txList (reconDeduped strat market)).Nodup ∧
    calcBetweenDF ["tx_hash", "trade_timestamp", "resets"]
      (fun r : ARow => r.trade_timestamp) (fun r => some r.resets)
      (reconDeduped strat market) = .ok (some out) := by
  unfold concatenate_strategy_trades_with_market_trades at h
  by_cases h0 : "resets" ∉ strat.columns
  · rw [if_pos h0] at h
    exact Except.noConfusion h
  · rw [if_neg h0] at h
    have h1 : reconBody strat market = .ok (some out) := h
    unfold reconBody at h1
    by_cases g1 : "tx_hash" ∉ strat.columns ∨ "trade_timestamp" ∉ strat.columns
    · rw [if_pos g1] at h1
      exact Except.noConfusion h1
    · rw [if_neg g1] at h1
      by_cases g2 : "tx_hash" ∉ renameMarketColumns market.columns ∨
          "trade_timestamp" ∉ renameMarketColumns market.columns
      · rw [if_pos g2] at h1
        exact Except.noConfusion h1
      · rw [if_neg g2] at h1
        by_cases g3 : ¬ (txList (reconDeduped strat market)).Nodup
        · rw [if_pos g3] at h1
          exact Except.noConfusion h1
        · rw [if_neg g3] at h1
          exact ⟨not_not.mp g3, h1⟩

theorem reconCalc_countCore (rows : List ARow) (out : List (ARow × Option Int))
    (h : calcBetweenDF ["tx_hash", "trade_timestamp", "resets"]
      (fun r : ARow => r.trade_timestamp) (fun r => some r.resets) rows =
      .ok (some out)) :
    countCore (fun r : ARow => r.trade_timestamp) (fun r => some r.resets) rows =
      .ok (some out) := by
  rw [calcBetweenDF_guard _ _ _ _ (by decide)] at h
  have h' := Except.ok.inj h
  cases hcc : countCore (fun r : ARow => r.trade_timestamp)
      (fun r => some r.resets) rows with
  | error e =>
    rw [hcc] at h'
    have hnone : (none : Option (List (ARow × Option Int))) = some out := h'
    exact Option.noConfusion hnone
  | ok r =>
    rw [hcc] at h'
    have hr : r = some out := h'
    rw [hr]

theorem reconDeduped_tx_mem (strat : StratDF) (market : MarketDF) (x : String) :
    x ∈ txList (reconDeduped strat market) ↔
      x ∈ txList (reconAllRows strat market) := by
  have hperm1 : (txList (reconSorted strat market)).Perm
      (txList (reconAllRows strat market)) :=
    (List.perm_insertionSort _ _).map _
  unfold reconDeduped
  by_cases h : (txList (reconSorted strat market)).Nodup
  · rw [if_pos h]
    exact hperm1.mem_iff
  · rw [if_neg h]
    rw [dropDuplicatesByTx, dropDupTxAux_tx_mem]
    have hperm2 : (txList (List.insertionSort dedupLE (reconSorted strat market))).Perm
        (txList (reconSorted strat market)) :=
      (List.perm_insertionSort _ _).map _
    constructor
    · rintro ⟨-, hm⟩
      exact hperm1.mem_iff.mp (hperm2.mem_iff.mp hm)
    · intro hm
      exact ⟨by simp, hperm2.mem_iff.mpr (hperm1.mem_iff.mpr hm)⟩

theorem mem_txList_reconAllRows (strat : StratDF) (market : MarketDF) (x : String) :
    x ∈ txList (reconAllRows strat market) ↔
      x ∈ txList (stratResetRows strat) ∨
        x ∈ market.rows.map (fun r => r.tx_hash) := by
  unfold reconAllRows
  rw [txList_eq_map, List.map_append, List.mem_append, List.map_map]
  rw [← txList_eq_map]
  exact Iff.rfl

theorem sorted_perm_pair (a b : ARow) (l : List ARow) (hs : l.Pairwise dedupLE)
    (hp : l.Perm [a, b]) (hne : a ≠ b) (hba : ¬ dedupLE b a) : l = [a, b] := by
  have hlen : l.length = 2 := by rw [hp.length_eq]; rfl
  cases l with
  | nil => simp at hlen
  | cons u l1 =>
    cases l1 with
    | nil => simp at hlen
    | cons v l2 =>
      cases l2 with
      | cons w l3 => simp at hlen
      | nil =>
        have hu : u ∈ [a, b] := hp.mem_iff.mp (by simp)
        rcases (by simpa using hu : u = a ∨ u = b) with rfl | rfl
        · have hv : v = b := by
            have hvb : [v].Perm [b] := hp.cons_inv
            simpa using List.perm_singleton.mp hvb
          rw [hv]
        · have ha : a ∈ [u, v] := hp.mem_iff.mpr (by simp)
          have hva : v = a := by
            rcases (by simpa using ha : a = u ∨ a = v) with h' | h'
            · exact absurd h' hne
            · exact h'.symm
          obtain ⟨hrel, -⟩ := List.pairwise_cons.mp hs
          have : dedupLE u a := hrel a (by rw [hva]; simp)
          exact absurd this hba

/-- **C5**: every non-null Reconciler output carries each `tx_hash` exactly
once, and its set of `tx_hash` values is exactly the union of the strategy
reset-only rows' and the reference rows' `tx_hash` values — no transaction is
lost and exactly one record survives per `tx_hash`. -/
theorem reconciler_c5 (strat : StratDF) (market : MarketDF)
    (out : List (ARow × Option Int))
    (hout : (concatenate_strategy_trades_with_market_trades strat market).fst =
      .ok (some out)) :
    (txList (out.map Prod.fst)).Nodup ∧
    (∀ x, x ∈ txList (out.map Prod.fst) ↔
      x ∈ txList (stratResetRows strat) ∨
        x ∈ market.rows.map (fun r => r.tx_hash)) := by
  obtain ⟨hnd, hcalc⟩ := reconFst_cases strat market out hout
  have hcc := reconCalc_countCore _ _ hcalc
  have hbase := countCore_result (fun r : ARow => r.trade_timestamp)
    (fun r => some r.resets) (reconDeduped strat market) (fun r _ => rfl) out hcc
  have hpermout : (txList (out.map Prod.fst)).Perm
      (txList (reconDeduped strat market)) := by
    rw [hbase]
    exact (List.perm_insertionSort _ _).map _
  constructor
  · exact hpermout.nodup_iff.mpr hnd
  · intro x
    rw [hpermout.mem_iff, reconDeduped_tx_mem, mem_txList_reconAllRows]

/-- Witness for C5 at the spec's scenario-3 inputs. -/
theorem reconciler_c5_witness :
    (concatenate_strategy_trades_with_market_trades
        ⟨["tx_hash", "trade_timestamp", "resets"], [⟨"X", 100, true⟩]⟩
        ⟨["tx_hash", "datetime"], [⟨"X", 100⟩, ⟨"Y", 150⟩]⟩).fst =
      .ok (some [(⟨"X", 100, true⟩, some 0), (⟨"Y", 150, false⟩, none)]) ∧
    ((txList (([(⟨"X", 100, true⟩, some 0), (⟨"Y", 150, false⟩, none)] :
        List (ARow × Option Int)).map Prod.fst)).Nodup ∧
     (∀ x, x ∈ txList (([(⟨"X", 100, true⟩, some 0), (⟨"Y", 150, false⟩, none)] :
        List (ARow × Option Int)).map Prod.fst) ↔
      x ∈ txList (stratResetRows
        ⟨["tx_hash", "trade_timestamp", "resets"], [⟨"X", 100, true⟩]⟩) ∨
        x ∈ (⟨["tx_hash", "datetime"], [⟨"X", 100⟩, ⟨"Y", 150⟩]⟩ : MarketDF).rows.map
          (fun r => r.tx_hash))) :=
  ⟨rfl, reconciler_c5 _ _ _ rfl⟩

/-- **C6 counterexample**: a strategy frame with two reset rows sharing one
`tx_hash`, reconciled against an empty reference set.  The claim demands the
output be exactly the reset rows of the input; the code's dedup pass drops one
of them, so only one row survives. -/
theorem reconciler_c6_counterexample :
    (concatenate_strategy_trades_with_market_trades
        ⟨["tx_hash", "trade_timestamp", "resets"],
          [⟨"x", 1, true⟩, ⟨"x", 2, true⟩]⟩
        ⟨["tx_hash", "datetime"], []⟩).fst =
      .ok (some [(⟨"x", 1, true⟩, some 0)]) ∧
    (stratResetRows ⟨["tx_hash", "trade_timestamp", "resets"],
        [⟨"x", 1, true⟩, ⟨"x", 2, true⟩]⟩).length = 2 ∧
    ([(⟨"x", 1, true⟩, some 0)] : List (ARow × Option Int)).length = 1 :=
  ⟨rfl, rfl, rfl⟩

/-- **C6 amended**: the Reconciler on `(A, empty reference set)` returns
exactly the reset rows of `A` (timestamp-sorted, with the interval-count
column attached) provided those rows are nonempty and carry pairwise-distinct
`tx_hash` values; a duplicated `tx_hash` among them is collapsed by the dedup
pass, and a reset-free `A` yields the null no-resets signal instead of an
empty collection. -/
theorem reconciler_c6_amended (strat : StratDF) (market : MarketDF)
    (h0 : "resets" ∈ strat.columns)
    (h1 : "tx_hash" ∈ strat.columns) (h2 : "trade_timestamp" ∈ strat.columns)
    (hm0 : market.rows = [])
    (hm1 : "tx_hash" ∈ renameMarketColumns market.columns)
    (hm2 : "trade_timestamp" ∈ renameMarketColumns market.columns)
    (hnd : (txList (stratResetRows strat)).Nodup)
    (hne : stratResetRows strat ≠ []) :
    ∃ out, (concatenate_strategy_trades_with_market_trades strat market).fst =
      .ok (some out) ∧
      out.map Prod.fst =
        List.insertionSort (keyLE (fun r : ARow => r.trade_timestamp))
          (stratResetRows strat) := by
  have hall : reconAllRows strat market = stratResetRows strat := by
    unfold reconAllRows
    rw [hm0]
    simp
  have hsorted1 : reconSorted strat market =
      List.insertionSort (keyLE (fun r : ARow => r.trade_timestamp))
        (stratResetRows strat) := by
    unfold reconSorted
    rw [hall]
  have hnd1 : (txList (reconSorted strat market)).Nodup := by
    rw [hsorted1]
    exact (((List.perm_insertionSort _ _).map (fun r : ARow => r.tx_hash)).nodup_iff).mpr hnd
  have hded : reconDeduped strat market = reconSorted strat market := by
    unfold reconDeduped
    rw [if_pos hnd1]
  have hidem : List.insertionSort (keyLE (fun r : ARow => r.trade_timestamp))
      (reconDeduped strat market) = reconDeduped strat market := by
    rw [hded]
    unfold reconSorted
    exact List.Sorted.insertionSort_eq
      (List.sorted_insertionSort _ (reconAllRows strat market))
  obtain ⟨s, ss, hss⟩ : ∃ s ss, stratResetRows strat = s :: ss := by
    cases hE : stratResetRows strat with
    | nil => exact absurd hE hne
    | cons a l => exact ⟨a, l, rfl⟩
  have hstrue : s.resets = true := by
    have : s ∈ stratResetRows strat := by rw [hss]; simp
    exact List.of_mem_filter this
  have hsmem : s ∈ reconDeduped strat market := by
    rw [hded]
    refine (List.perm_insertionSort _ _).mem_iff.mpr ?_
    rw [hall, hss]
    simp
  have hres : ∃ r ∈ reconDeduped strat market, some r.resets = some true :=
    ⟨s, hsmem, by rw [hstrue]⟩
  have hcc := countCore_eq_of_pos (fun r : ARow => r.trade_timestamp)
    (fun r => some r.resets) (reconDeduped strat market) (fun r _ => rfl) hres
  have g1 : ¬ ("tx_hash" ∉ strat.columns ∨ "trade_timestamp" ∉ strat.columns) := by
    push_neg
    exact ⟨h1, h2⟩
  have g2 : ¬ ("tx_hash" ∉ renameMarketColumns market.columns ∨
      "trade_timestamp" ∉ renameMarketColumns market.columns) := by
    push_neg
    exact ⟨hm1, hm2⟩
  have g3 : ¬ ¬ (txList (reconDeduped strat market)).Nodup :=
    not_not_intro (hded ▸ hnd1)
  refine ⟨(List.insertionSort (keyLE (fun r : ARow => r.trade_timestamp))
      (reconDeduped strat market)).zip
    (countsColumn ((resetIndices (fun r : ARow => some r.resets)
        (List.insertionSort (keyLE (fun r : ARow => r.trade_timestamp))
          (reconDeduped strat market))).zip
      (intervalCounts (resetIndices (fun r : ARow => some r.resets)
        (List.insertionSort (keyLE (fun r : ARow => r.trade_timestamp))
          (reconDeduped strat market)))))
      (List.insertionSort (keyLE (fun r : ARow => r.trade_timestamp))
        (reconDeduped strat market)).length), ?_, ?_⟩
  · unfold concatenate_strategy_trades_with_market_trades
    rw [if_neg (not_not_intro h0)]
    show reconBody strat market = _
    unfold reconBody
    rw [if_neg g1, if_neg g2, if_neg g3,
      calcBetweenDF_guard _ _ _ _ (by decide), hcc]
  · have hlen : (countsColumn
        ((resetIndices (fun r : ARow => some r.resets)
            (List.insertionSort (keyLE (fun r : ARow => r.trade_timestamp))
              (reconDeduped strat market))).zip
          (intervalCounts (resetIndices (fun r : ARow => some r.resets)
            (List.insertionSort (keyLE (fun r : ARow => r.trade_timestamp))
              (reconDeduped strat market)))))
        (List.insertionSort (keyLE (fun r : ARow => r.trade_timestamp))
          (reconDeduped strat market)).length).length =
        (List.insertionSort (keyLE (fun r : ARow => r.trade_timestamp))
          (reconDeduped strat market)).length := by
      rw [countsColumn, List.length_map, List.length_range]
    rw [List.map_fst_zip _ _ (le_of_eq hlen.symm), hidem, hded, hsorted1]

/-- Witness for the amended C6. -/
theorem reconciler_c6_amended_witness :
    ("resets" ∈ (["tx_hash", "trade_timestamp", "resets"] : List String) ∧
     (txList (stratResetRows ⟨["tx_hash", "trade_timestamp", "resets"],
        [⟨"a", 2, true⟩, ⟨"b", 1, false⟩]⟩)).Nodup ∧
     stratResetRows ⟨["tx_hash", "trade_timestamp", "resets"],
        [⟨"a", 2, true⟩, ⟨"b", 1, false⟩]⟩ ≠ []) ∧
    (∃ out, (concatenate_strategy_trades_with_market_trades
        ⟨["tx_hash", "trade_timestamp", "resets"],
          [⟨"a", 2, true⟩, ⟨"b", 1, false⟩]⟩
        ⟨["tx_hash", "datetime"], []⟩).fst = .ok (some out) ∧
      out.map Prod.fst =
        List.insertionSort (keyLE (fun r : ARow => r.trade_timestamp))
          (stratResetRows ⟨["tx_hash", "trade_timestamp", "resets"],
            [⟨"a", 2, true⟩, ⟨"b", 1, false⟩]⟩)) :=
  ⟨⟨by decide, by decide, by decide⟩,
    reconciler_c6_amended _ _ (by decide) (by decide) (by decide) rfl
      (by decide) (by decide) (by decide) (by decide)⟩

/-- **C4 counterexample**: both sides carry `tx_hash = x` — the strategy side
as a reset at `t = 200`, the reference side at the earlier `t = 100`.  The
sort of `resets.py` line 173 orders by timestamp before the descending
`resets` key, so keep-first retains the reference record: the survivor for `x`
carries `resets = false`, not the strategy-side `resets = true` record the
claim requires. -/
theorem reconciler_c4_counterexample :
    (concatenate_strategy_trades_with_market_trades
        ⟨["tx_hash", "trade_timestamp", "resets"],
          [⟨"x", 200, true⟩, ⟨"z", 50, true⟩]⟩
        ⟨["tx_hash", "datetime"], [⟨"x", 100⟩]⟩).fst =
      .ok (some [(⟨"z", 50, true⟩, some 0), (⟨"x", 100, false⟩, none)]) ∧
    (⟨"x", 200, true⟩ : ARow) ∈ stratResetRows
        ⟨["tx_hash", "trade_timestamp", "resets"],
          [⟨"x", 200, true⟩, ⟨"z", 50, true⟩]⟩ ∧
    (⟨"x", 100⟩ : MRow) ∈ (⟨["tx_hash", "datetime"], [⟨"x", 100⟩]⟩ : MarketDF).rows ∧
    (([(⟨"z", 50, true⟩, some 0), (⟨"x", 100, false⟩, none)] :
        List (ARow × Option Int)).map Prod.fst).filter
      (fun r => r.tx_hash == "x") = [⟨"x", 100, false⟩] :=
  ⟨rfl, by decide, by decide, by decide⟩

/-- **C4 amended**: when the strategy side (filtered to resets) and the
reference side each contain exactly one record with the shared `tx_hash` and
those two records carry equal timestamps — the duplicate-transaction case the
spec describes — the record surviving deduplication is the strategy one with
`is_reset = true`.  In general the survivor is the first record per `tx_hash`
in `(timestamp ascending, is_reset descending)` order, so a reference record
with a strictly earlier timestamp survives instead. -/
theorem reconciler_c4_amended (strat : StratDF) (market : MarketDF)
    (x : String) (t : Int)
    (h0 : "resets" ∈ strat.columns)
    (h1 : "tx_hash" ∈ strat.columns) (h2 : "trade_timestamp" ∈ strat.columns)
    (hm1 : "tx_hash" ∈ renameMarketColumns market.columns)
    (hm2 : "trade_timestamp" ∈ renameMarketColumns market.columns)
    (hsx : (stratResetRows strat).filter (fun r => r.tx_hash == x) = [⟨x, t, true⟩])
    (hmx : market.rows.filter (fun r => r.tx_hash == x) = [⟨x, t⟩]) :
    ∃ out, (concatenate_strategy_trades_with_market_trades strat market).fst =
      .ok (some out) ∧
      (out.map Prod.fst).filter (fun r => r.tx_hash == x) = [⟨x, t, true⟩] := by
  have hfall : (reconAllRows strat market).filter (fun r => r.tx_hash == x) =
      [⟨x, t, true⟩, ⟨x, t, false⟩] := by
    unfold reconAllRows
    rw [List.filter_append, hsx, List.filter_map]
    have hcongr : market.rows.filter
        ((fun r : ARow => r.tx_hash == x) ∘ marketToARow) =
        market.rows.filter (fun r => r.tx_hash == x) :=
      List.filter_congr (fun r _ => rfl)
    rw [hcongr, hmx]
    rfl
  have hfsorted1 : ((reconSorted strat market).filter
      (fun r => r.tx_hash == x)).Perm [⟨x, t, true⟩, ⟨x, t, false⟩] := by
    rw [← hfall]
    exact (List.perm_insertionSort _ _).filter _
  have hdup : ¬ (txList (reconSorted strat market)).Nodup := by
    intro hcontra
    have := filter_tx_len_le_one (reconSorted strat market) x hcontra
    rw [hfsorted1.length_eq] at this
    simp at this
  have hded : reconDeduped strat market =
      dropDuplicatesByTx (List.insertionSort dedupLE (reconSorted strat market)) := by
    unfold reconDeduped
    rw [if_neg hdup]
  have hs2filterperm : ((List.insertionSort dedupLE (reconSorted strat market)).filter
      (fun r => r.tx_hash == x)).Perm [⟨x, t, true⟩, ⟨x, t, false⟩] :=
    ((List.perm_insertionSort dedupLE _).filter _).trans hfsorted1
  have hs2filtersorted : ((List.insertionSort dedupLE (reconSorted strat market)).filter
      (fun r => r.tx_hash == x)).Pairwise dedupLE :=
    (List.sorted_insertionSort dedupLE _).filter _
  have hba : ¬ dedupLE ⟨x, t, false⟩ ⟨x, t, true⟩ := by
    rintro (h | ⟨-, h | ⟨-, h⟩⟩)
    · exact strLT_irrefl x h
    · exact lt_irrefl t h
    · simp [resetsKey] at h
  have habne : (⟨x, t, true⟩ : ARow) ≠ ⟨x, t, false⟩ := by
    intro h
    have : (true : Bool) = false := congrArg ARow.resets h
    exact Bool.noConfusion this
  have hs2filter : (List.insertionSort dedupLE (reconSorted strat market)).filter
      (fun r => r.tx_hash == x) = [⟨x, t, true⟩, ⟨x, t, false⟩] :=
    sorted_perm_pair _ _ _ hs2filtersorted hs2filterperm habne hba
  have hdedfilter : (reconDeduped strat market).filter (fun r => r.tx_hash == x) =
      [⟨x, t, true⟩] := by
    rw [hded, dropDuplicatesByTx, dropDupTxAux_filter, hs2filter]
    rfl
  have hamem : (⟨x, t, true⟩ : ARow) ∈ reconDeduped strat market := by
    have : (⟨x, t, true⟩ : ARow) ∈ (reconDeduped strat market).filter
        (fun r => r.tx_hash == x) := by
      rw [hdedfilter]
      simp
    exact List.mem_of_mem_filter this
  have hres : ∃ r ∈ reconDeduped strat market, some r.resets = some true :=
    ⟨⟨x, t, true⟩, hamem, rfl⟩
  have hnd6 : (txList (reconDeduped strat market)).Nodup := by
    rw [hded, dropDuplicatesByTx]
    exact (dropDupTxAux_nodup _ []).1
  have hcc := countCore_eq_of_pos (fun r : ARow => r.trade_timestamp)
    (fun r => some r.resets) (reconDeduped strat market) (fun r _ => rfl) hres
  have g1 : ¬ ("tx_hash" ∉ strat.columns ∨ "trade_timestamp" ∉ strat.columns) := by
    push_neg
    exact ⟨h1, h2⟩
  have g2 : ¬ ("tx_hash" ∉ renameMarketColumns market.columns ∨
      "trade_timestamp" ∉ renameMarketColumns market.columns) := by
    push_neg
    exact ⟨hm1, hm2⟩
  have g3 : ¬ ¬ (txList (reconDeduped strat market)).Nodup := not_not_intro hnd6
  refine ⟨(List.insertionSort (keyLE (fun r : ARow => r.trade_timestamp))
      (reconDeduped strat market)).zip
    (countsColumn ((resetIndices (fun r : ARow => some r.resets)
        (List.insertionSort (keyLE (fun r : ARow => r.trade_timestamp))
          (reconDeduped strat market))).zip
      (intervalCounts (resetIndices (fun r : ARow => some r.resets)
        (List.insertionSort (keyLE (fun r : ARow => r.trade_timestamp))
          (reconDeduped strat market)))))
      (List.insertionSort (keyLE (fun r : ARow => r.trade_timestamp))
        (reconDeduped strat market)).length), ?_, ?_⟩
  · unfold concatenate_strategy_trades_with_market_trades
    rw [if_neg (not_not_intro h0)]
    show reconBody strat market = _
    unfold reconBody
    rw [if_neg g1, if_neg g2, if_neg g3,
      calcBetweenDF_guard _ _ _ _ (by decide), hcc]
  · have hlen : (countsColumn
        ((resetIndices (fun r : ARow => some r.resets)
            (List.insertionSort (keyLE (fun r : ARow => r.trade_timestamp))
              (reconDeduped strat market))).zip
          (intervalCounts (resetIndices (fun r : ARow => some r.resets)
            (List.insertionSort (keyLE (fun r : ARow => r.trade_timestamp))
              (reconDeduped strat market)))))
        (List.insertionSort (keyLE (fun r : ARow => r.trade_timestamp))
          (reconDeduped strat market)).length).length =
        (List.insertionSort (keyLE (fun r : ARow => r.trade_timestamp))
          (reconDeduped strat market)).length := by
      rw [countsColumn, List.length_map, List.length_range]
    rw [List.map_fst_zip _ _ (le_of_eq hlen.symm)]
    have hperm : ((List.insertionSort (keyLE (fun r : ARow => r.trade_timestamp))
        (reconDeduped strat market)).filter (fun r => r.tx_hash == x)).Perm
        [⟨x, t, true⟩] := by
      rw [← hdedfilter]
      exact (List.perm_insertionSort _ _).filter _
    exact List.perm_singleton.mp hperm

/-- Witness for the amended C4 at the spec's scenario-3 inputs. -/
theorem reconciler_c4_amended_witness :
    ((stratResetRows ⟨["tx_hash", "trade_timestamp", "resets"],
        [⟨"X", 100, true⟩]⟩).filter (fun r => r.tx_hash == "X") =
      [⟨"X", 100, true⟩] ∧
     (⟨["tx_hash", "datetime"], [⟨"X", 100⟩, ⟨"Y", 150⟩]⟩ : MarketDF).rows.filter
        (fun r => r.tx_hash == "X") = [⟨"X", 100⟩]) ∧
    (∃ out, (concatenate_strategy_trades_with_market_trades
        ⟨["tx_hash", "trade_timestamp", "resets"], [⟨"X", 100, true⟩]⟩
        ⟨["tx_hash", "datetime"], [⟨"X", 100⟩, ⟨"Y", 150⟩]⟩).fst =
      .ok (some out) ∧
      (out.map Prod.fst).filter (fun r => r.tx_hash == "X") = [⟨"X", 100, true⟩]) :=
  ⟨⟨by decide, by decide⟩,
    reconciler_c4_amended _ _ "X" 100 (by decide) (by decide) (by decide)
      (by decide) (by decide) (by decide) (by decide)⟩

end RainValidation
